import Mathlib

/-
Shallow embedding of the manta ray tracer (src/geometry.rs, src/image.rs,
src/tracer.rs).  Rust f64 values are modelled as real numbers; Rust's
`Option` maps to Lean's `Option`; an index-out-of-bounds panic is modelled
by returning `none`.  The process-wide random generator `fastrand::f64()`
is modelled by an explicit stream `g : ℕ → ℝ` together with a cursor that
counts how many draws have been consumed; each function that draws
randomness receives the stream and the cursor and reports the new cursor.
In the repository's final state `Point3` is the same type as `Vec3`
(tracer.rs freely passes one for the other), so the embedding uses a
single vector type.
-/

namespace Manta

noncomputable section

/-- Vec3 from src/geometry.rs: an element of R^3 with f64 components. -/
structure Vec3 where
  x : ℝ
  y : ℝ
  z : ℝ

/-- Point3 is identified with Vec3 (tracer.rs uses them interchangeably). -/
abbrev Point3 := Vec3

/-- Vec3::dot from src/geometry.rs. -/
def Vec3.dot (v w : Vec3) : ℝ := v.x * w.x + v.y * w.y + v.z * w.z

/-- Vec3::len2 from src/geometry.rs: the squared length, `self.dot(self)`. -/
def Vec3.len2 (v : Vec3) : ℝ := v.dot v

/-- Vec3::len from src/geometry.rs: `self.len2().sqrt()`. -/
def Vec3.len (v : Vec3) : ℝ := Real.sqrt v.len2

/-- vec + vec from src/geometry.rs. -/
instance : Add Vec3 := ⟨fun v w => ⟨v.x + w.x, v.y + w.y, v.z + w.z⟩⟩

/-- vec * real from src/geometry.rs (componentwise scaling). -/
instance : HMul Vec3 ℝ Vec3 := ⟨fun v s => ⟨s * v.x, s * v.y, s * v.z⟩⟩

/-- Negation of a vec from src/geometry.rs: `-1.0 * self`. -/
instance : Neg Vec3 := ⟨fun v => v * (-1 : ℝ)⟩

/-- vec - vec from src/geometry.rs: `self + -other`. -/
instance : Sub Vec3 := ⟨fun v w => v + -w⟩

/-- vec / real from src/geometry.rs: `(1.0 / scale) * self`. -/
instance : HDiv Vec3 ℝ Vec3 := ⟨fun v s => v * ((1 : ℝ) / s)⟩

/-- Modelled from the spec: the vector library's `normalize` (absent from
the src/geometry.rs snapshot, but called by tracer.rs), which the spec
describes as the black-box normalization operation of the vector algebra:
the unit vector in the direction of `v`, i.e. `v` divided by its length. -/
def Vec3.normalize (v : Vec3) : Vec3 := v / v.len

/-- Modelled from the spec: `reflect` (absent from the src/geometry.rs
snapshot, but called by tracer.rs); spec section 4.4 gives
`reflect(v, n) = v − 2·(v·n)·n`. -/
def Vec3.reflect (v n : Vec3) : Vec3 := v - n * (2 * v.dot n)

/-- FRGBA from src/image.rs: a floating point RGBA pixel. -/
structure FRGBA where
  r : ℝ
  g : ℝ
  b : ℝ
  a : ℝ

/-- clamp from src/image.rs. -/
def clamp (f : ℝ) : ℝ := if f > 1 then 1 else if f < 0 then 0 else f

/-- frgb from src/image.rs: a fully opaque FRGBA color with clamped channels. -/
def frgb (r g b : ℝ) : FRGBA := ⟨clamp r, clamp g, clamp b, 1⟩

/-- FRGBA::lerp from src/image.rs. -/
def FRGBA.lerp (c : FRGBA) (t : ℝ) (that : FRGBA) : FRGBA :=
  frgb (c.r - t * (c.r - that.r)) (c.g - t * (c.g - that.g)) (c.b - t * (c.b - that.b))

/-- RGBA from src/image.rs: an 8-bit RGBA pixel (u8 channels as ℕ). -/
structure RGBA where
  r : ℕ
  g : ℕ
  b : ℕ
  a : ℕ
deriving DecidableEq

/-- convert_component from src/image.rs: `(c * 255.999) as u8`.  Rust's
float-to-u8 `as` cast truncates toward zero and saturates at the bounds of
u8, which for the nonnegative range is `min 255 ⌊c * 255.999⌋` (negative
inputs saturate to 0, which `Int.toNat` provides). -/
def convert_component (c : ℝ) : ℕ := (min 255 ⌊c * 255.999⌋).toNat

/-- From<FRGBA> for RGBA from src/image.rs. -/
def RGBA.ofFRGBA (color : FRGBA) : RGBA :=
  ⟨convert_component color.r, convert_component color.g,
   convert_component color.b, convert_component color.a⟩

/-- Image from src/image.rs: a flat byte buffer with width and height.  The
bytes are modelled as naturals; only indexing behavior matters here. -/
structure Image where
  data : List ℕ
  width : ℕ
  height : ℕ
deriving DecidableEq

/-- Image::empty from src/image.rs: `vec![0; (width * height) << 2]`. -/
def Image.empty (width height : ℕ) : Image :=
  ⟨List.replicate (width * height * 4) 0, width, height⟩

/-- Image::set from src/image.rs: write a pixel's four bytes starting at
`(width * y + x) << 2`.  A Rust indexing panic (index ≥ data length) is
modelled as `none`; the in-bounds write returns the updated image. -/
def Image.set (img : Image) (x y : ℕ) (color : RGBA) : Option Image :=
  let start := (img.width * y + x) * 4
  if start + 3 < img.data.length then
    some { img with
      data := ((((img.data.set start color.r).set (start + 1) color.g).set
        (start + 2) color.b).set (start + 3) color.a) }
  else
    none

/-- rand_range from src/tracer.rs, with the `fastrand::f64()` draw made an
explicit argument `u`. -/
def rand_range (min max u : ℝ) : ℝ := min + (max - min) * u

/-- unit_rand from src/tracer.rs (the polar method), with its two
`fastrand::f64()` draws made explicit arguments. -/
def unit_rand (u1 u2 : ℝ) : Vec3 :=
  let a := rand_range 0 (2 * Real.pi) u1
  let z := rand_range (-1) 1 u2
  let r := Real.sqrt (1 - z * z)
  ⟨r * Real.cos a, r * Real.sin a, z⟩

/-- Ray from src/tracer.rs. -/
structure Ray where
  origin : Point3
  direction : Vec3

/-- Ray::at from src/tracer.rs. -/
def Ray.at (ray : Ray) (t : ℝ) : Point3 := ray.origin + ray.direction * t

/-- refract from src/tracer.rs. -/
def refract (uv n : Vec3) (ri_over_rt : ℝ) : Vec3 :=
  let cos_theta := -(uv.dot n)
  let r_out_parallel := (uv + n * cos_theta) * ri_over_rt
  let r_out_perp := n * (-(Real.sqrt (1 - r_out_parallel.len2)))
  r_out_parallel + r_out_perp

/-- schlick from src/tracer.rs (`r0 *= r0` unrolled into a second let). -/
def schlick (cosine ref_idx : ℝ) : ℝ :=
  let r0 := (1 - ref_idx) / (1 + ref_idx)
  let r0sq := r0 * r0
  r0sq + (1 - r0sq) * (1 - cosine) ^ (5 : ℕ)

/-- Material from src/tracer.rs. -/
inductive Material where
  | Diffuse (albedo : FRGBA)
  | Metal (albedo : FRGBA) (fuzz : ℝ)
  | Glass (ri : ℝ)

/-- HitRecord from src/tracer.rs. -/
structure HitRecord where
  p : Point3
  t : ℝ
  normal : Vec3
  outwards : Bool
  material : Material

/-- HitRecord::new from src/tracer.rs. -/
def HitRecord.new (t : ℝ) (p : Point3) (ray : Ray) (out_normal : Vec3)
    (material : Material) : HitRecord :=
  let outwards : Bool := if ray.direction.dot out_normal < 0 then true else false
  { p := p, t := t,
    normal := if outwards then out_normal else -out_normal,
    outwards := outwards, material := material }

/-- HitRecord::scatter from src/tracer.rs.  Random draws come from the
stream `g` at cursor `k`; the returned ℕ is the advanced cursor (Diffuse
and Metal consume the two draws of `unit_rand`; Glass consumes one draw
for the reflect-probability test, and none when total internal reflection
short-circuits the `||`). -/
def HitRecord.scatter (rec : HitRecord) (ray : Ray) (g : ℕ → ℝ) (k : ℕ) :
    Option (Ray × FRGBA) × ℕ :=
  match rec.material with
  | Material.Diffuse albedo =>
      let direction := rec.normal + unit_rand (g k) (g (k + 1))
      (some ({ origin := rec.p, direction := direction }, albedo), k + 2)
  | Material.Metal albedo fuzz =>
      let reflected := ray.direction.reflect rec.normal
      let direction := reflected + unit_rand (g k) (g (k + 1)) * fuzz
      let scattered : Ray := { origin := rec.p, direction := direction }
      if scattered.direction.dot rec.normal > 0 then
        (some (scattered, albedo), k + 2)
      else
        (none, k + 2)
  | Material.Glass ri =>
      let ri_over_rt := if rec.outwards then 1 / ri else ri
      let attenuation := frgb 1 1 1
      let unit := ray.direction.normalize
      let cos0 := -(unit.dot rec.normal)
      let cos_theta := if cos0 > 1 then 1 else cos0
      let sin_theta := Real.sqrt (1 - cos_theta * cos_theta)
      let reflect_prob := schlick cos_theta ri
      if ri_over_rt * sin_theta > 1 then
        (some ({ origin := rec.p, direction := unit.reflect rec.normal }, attenuation), k)
      else if g k < reflect_prob then
        (some ({ origin := rec.p, direction := unit.reflect rec.normal }, attenuation), k + 1)
      else
        (some ({ origin := rec.p, direction := refract unit rec.normal ri_over_rt },
          attenuation), k + 1)

/-- The Hittable trait from src/tracer.rs, as the type of hit functions.
The f64 bounds are `WithTop ℝ` so that `f64::INFINITY` (passed by
`ray_color`) is representable; hit parameters themselves are finite. -/
def Hittable : Type := Ray → WithTop ℝ → WithTop ℝ → Option HitRecord

/-- Rust's `Range::contains` for the half-open interval `t_min..t_max`:
`t_min ≤ x ∧ x < t_max`. -/
def rangeContains (t_min t_max : WithTop ℝ) (x : ℝ) : Prop :=
  t_min ≤ (x : WithTop ℝ) ∧ (x : WithTop ℝ) < t_max

instance (t_min t_max : WithTop ℝ) (x : ℝ) : Decidable (rangeContains t_min t_max x) :=
  inferInstanceAs (Decidable (t_min ≤ (x : WithTop ℝ) ∧ (x : WithTop ℝ) < t_max))

/-- Sphere from src/tracer.rs. -/
structure Sphere where
  center : Point3
  radius : ℝ
  material : Material

/-- The local `a` of Sphere::hit: `ray.direction.len2()`. -/
def sphereA (ray : Ray) : ℝ := ray.direction.len2

/-- The local `half_b` of Sphere::hit: `oc.dot(&ray.direction)`. -/
def sphereHalfB (s : Sphere) (ray : Ray) : ℝ := (ray.origin - s.center).dot ray.direction

/-- The local `c` of Sphere::hit: `oc.len2() - radius * radius`. -/
def sphereC (s : Sphere) (ray : Ray) : ℝ :=
  (ray.origin - s.center).len2 - s.radius * s.radius

/-- The local `discrim` of Sphere::hit: `half_b * half_b - a * c`. -/
def sphereDiscrim (s : Sphere) (ray : Ray) : ℝ :=
  sphereHalfB s ray * sphereHalfB s ray - sphereA ray * sphereC s ray

/-- The local `solution1` of Sphere::hit: `(-half_b - root) / a`. -/
def sphereT1 (s : Sphere) (ray : Ray) : ℝ :=
  (-sphereHalfB s ray - Real.sqrt (sphereDiscrim s ray)) / sphereA ray

/-- The local `solution2` of Sphere::hit: `(-half_b + root) / a`. -/
def sphereT2 (s : Sphere) (ray : Ray) : ℝ :=
  (-sphereHalfB s ray + Real.sqrt (sphereDiscrim s ray)) / sphereA ray

/-- The local closure `get_record` of Sphere::hit. -/
def sphereRecord (s : Sphere) (ray : Ray) (solution : ℝ) : HitRecord :=
  HitRecord.new solution (ray.at solution) ray ((ray.at solution - s.center) / s.radius)
    s.material

/-- Sphere::hit from src/tracer.rs (its locals are the named definitions
above). -/
def Sphere.hit (s : Sphere) (ray : Ray) (t_min t_max : WithTop ℝ) : Option HitRecord :=
  if sphereDiscrim s ray < 0 then
    none
  else
    if rangeContains t_min t_max (sphereT1 s ray) then
      some (sphereRecord s ray (sphereT1 s ray))
    else if rangeContains t_min t_max (sphereT2 s ray) then
      some (sphereRecord s ray (sphereT2 s ray))
    else
      none

/-- The body of the loop of `HittableList::hit`: query the next object with
`t_max` shrunk to the closest hit parameter found so far. -/
def hlStep (ray : Ray) (t_min : WithTop ℝ) (acc : Option HitRecord × WithTop ℝ)
    (obj : Hittable) : Option HitRecord × WithTop ℝ :=
  match obj ray t_min acc.2 with
  | some rec => (some rec, (rec.t : WithTop ℝ))
  | none => acc

/-- HittableList::hit from src/tracer.rs: fold the loop body over the list,
starting from no result and `closest_t = t_max`. -/
def hittableListHit (l : List Hittable) (ray : Ray) (t_min t_max : WithTop ℝ) :
    Option HitRecord :=
  (l.foldl (hlStep ray t_min) (none, t_max)).1

/-- The bounce loop of ray_color from src/tracer.rs, by recursion on the
remaining depth, carrying the running color and the random cursor.  Note
that when `scatter` returns `None` the Rust `if let` has no else branch:
the loop continues with the same ray and color. -/
def rayColorGo (world : Hittable) (g : ℕ → ℝ) :
    ℕ → Ray → FRGBA → ℕ → FRGBA
  | 0, _, _, _ => frgb 0 0 0
  | Nat.succ depth, ray, color, k =>
    match world ray ((0.0001 : ℝ) : WithTop ℝ) ⊤ with
    | some rec =>
      match rec.scatter ray g k with
      | (some (scattered, attenuation), k1) =>
          rayColorGo world g depth scattered
            ⟨color.r * attenuation.r, color.g * attenuation.g,
             color.b * attenuation.b, color.a⟩ k1
      | (none, k1) => rayColorGo world g depth ray color k1
    | none =>
      let unit := ray.direction.normalize
      let t := 0.5 * (unit.y + 1)
      let base := (frgb 1 1 1).lerp t (frgb 0.5 0.7 1)
      frgb (base.r * color.r) (base.g * color.g) (base.b * color.b)

/-- ray_color from src/tracer.rs: run the bounce loop with white as the
initial color, drawing randomness from `g` starting at cursor 0. -/
def ray_color (ray : Ray) (world : Hittable) (depth : ℕ) (g : ℕ → ℝ) : FRGBA :=
  rayColorGo world g depth ray (frgb 1 1 1) 0

/-- SampledColor from src/tracer.rs. -/
structure SampledColor where
  samples : ℕ
  acc : FRGBA

/-- SampledColor::empty from src/tracer.rs. -/
def SampledColor.empty : SampledColor := ⟨0, ⟨0, 0, 0, 0⟩⟩

/-- SampledColor::add from src/tracer.rs. -/
def SampledColor.add (s : SampledColor) (sample : FRGBA) : SampledColor :=
  ⟨s.samples + 1,
   ⟨s.acc.r + sample.r, s.acc.g + sample.g, s.acc.b + sample.b, s.acc.a + sample.a⟩⟩

/-- SampledColor::result from src/tracer.rs. -/
def SampledColor.result (s : SampledColor) : FRGBA :=
  let total : ℝ := s.samples
  ⟨Real.sqrt (s.acc.r / total), Real.sqrt (s.acc.g / total),
   Real.sqrt (s.acc.b / total), s.acc.a / total⟩

/-- The candidate hit parameters of a sphere along a ray: empty when the
discriminant is negative, otherwise the two quadratic roots. -/
def sphereCands (s : Sphere) (ray : Ray) : List ℝ :=
  if sphereDiscrim s ray < 0 then [] else [sphereT1 s ray, sphereT2 s ray]

/-- A hit function is lawful for a candidate list `ts` when, for every
query window, it returns the smallest candidate inside the window (and
nothing when no candidate is inside). -/
def Lawful (h : Hittable) (ray : Ray) (ts : List ℝ) : Prop :=
  ∀ t_min t_max : WithTop ℝ,
    (h ray t_min t_max = none ∧ ∀ x ∈ ts, ¬ rangeContains t_min t_max x) ∨
    (∃ rec, h ray t_min t_max = some rec ∧ rec.t ∈ ts ∧
      rangeContains t_min t_max rec.t ∧
      ∀ x ∈ ts, rangeContains t_min t_max x → rec.t ≤ x)

/-- Invariant carried through HittableList::hit's loop: either no hit yet
and `closest_t` still equals the original `t_max` with no candidate seen in
the window, or the current result is the minimum candidate seen so far. -/
def HLState (t_min T : WithTop ℝ) (cands : ℝ → Prop)
    (st : Option HitRecord × WithTop ℝ) : Prop :=
  (st.1 = none ∧ st.2 = T ∧ ∀ x, cands x → ¬ rangeContains t_min T x) ∨
  (∃ rec, st.1 = some rec ∧ st.2 = (rec.t : WithTop ℝ) ∧ cands rec.t ∧
    rangeContains t_min T rec.t ∧
    ∀ x, cands x → rangeContains t_min T x → rec.t ≤ x)

/-- A concrete diffuse sphere overlapping `mSphere`: center (0,0,-3),
radius 1. -/
def bSphere : Sphere := ⟨⟨0, 0, -3⟩, 1, Material.Diffuse (frgb 1 1 1)⟩

/-- The hit record `mSphere` produces for `ray0` with bounds [0.0001, ∞). -/
def mRec : HitRecord :=
  ⟨⟨0, 0, -1⟩, 1, ⟨0, 0, 1⟩, true, Material.Metal (frgb 1 1 1) 2⟩

/-- A concrete random stream: the draw at cursor 3 is 1, all others are 0. -/
def gC1 : ℕ → ℝ := fun k => if k = 3 then 1 else 0

/-- The ray scattered off `mRec` at cursor 2 under the stream `gC1`. -/
def ray2 : Ray := ⟨⟨0, 0, -1⟩, ⟨0, 0, 3⟩⟩

/-- The all-zero random stream. -/
def gZero : ℕ → ℝ := fun _ => 0

/-- A concrete ray at oblique incidence with unit direction (3/5,-4/5,0). -/
def ray5 : Ray := ⟨⟨0, 0, 0⟩, ⟨3/5, -(4/5), 0⟩⟩

/-- The Glass branch's `ri_over_rt` local. -/
def glassRatio (outwards : Bool) (ri : ℝ) : ℝ := if outwards then 1 / ri else ri

/-- The Glass branch's clamped `cos_theta` local. -/
def glassCos (ray : Ray) (n : Vec3) : ℝ :=
  if -(ray.direction.normalize.dot n) > 1 then 1 else -(ray.direction.normalize.dot n)

/-- The Glass branch's `sin_theta` local. -/
def glassSin (ray : Ray) (n : Vec3) : ℝ :=
  Real.sqrt (1 - glassCos ray n * glassCos ray n)

/-- A concrete metal sphere used by several concrete evaluations: center
(0,0,-2), radius 1, Metal with white albedo and fuzz 2. -/
def mSphere : Sphere := ⟨⟨0, 0, -2⟩, 1, Material.Metal (frgb 1 1 1) 2⟩

/-- A concrete ray from the origin straight down the -z axis. -/
def ray0 : Ray := ⟨⟨0, 0, 0⟩, ⟨0, 0, -1⟩⟩

theorem Vec3.add_def (v w : Vec3) : v + w = ⟨v.x + w.x, v.y + w.y, v.z + w.z⟩ := rfl

theorem Vec3.hmul_def (v : Vec3) (s : ℝ) : v * s = ⟨s * v.x, s * v.y, s * v.z⟩ := rfl

theorem Vec3.neg_def (v : Vec3) : -v = ⟨-v.x, -v.y, -v.z⟩ := by
  show v * (-1 : ℝ) = _
  rw [Vec3.hmul_def]
  norm_num

theorem Vec3.sub_def (v w : Vec3) : v - w = ⟨v.x - w.x, v.y - w.y, v.z - w.z⟩ := by
  show v + -w = _
  rw [Vec3.neg_def, Vec3.add_def]
  simp only [Vec3.mk.injEq]
  refine ⟨by ring, by ring, by ring⟩

theorem Vec3.hdiv_def (v : Vec3) (s : ℝ) : v / s = v * ((1 : ℝ) / s) := rfl

theorem Vec3.dot_neg_right (v w : Vec3) : v.dot (-w) = -(v.dot w) := by
  rw [Vec3.neg_def]
  unfold Vec3.dot
  ring

/-- Definitional unfolding of scatter on a Diffuse record. -/
theorem scatter_diffuse_eq (p : Point3) (t : ℝ) (n : Vec3) (ow : Bool) (albedo : FRGBA)
    (ray : Ray) (g : ℕ → ℝ) (k : ℕ) :
    (HitRecord.mk p t n ow (Material.Diffuse albedo)).scatter ray g k
      = (some (Ray.mk p (n + unit_rand (g k) (g (k + 1))), albedo), k + 2) := rfl

/-- Definitional unfolding of scatter on a Metal record. -/
theorem scatter_metal_eq (p : Point3) (t : ℝ) (n : Vec3) (ow : Bool) (albedo : FRGBA)
    (fuzz : ℝ) (ray : Ray) (g : ℕ → ℝ) (k : ℕ) :
    (HitRecord.mk p t n ow (Material.Metal albedo fuzz)).scatter ray g k
      = (if (ray.direction.reflect n + unit_rand (g k) (g (k + 1)) * fuzz).dot n > 0
         then (some (Ray.mk p (ray.direction.reflect n + unit_rand (g k) (g (k + 1)) * fuzz),
           albedo), k + 2)
         else (none, k + 2)) := rfl

/-- Definitional unfolding of scatter on a Glass record. -/
theorem scatter_glass_eq (p : Point3) (t : ℝ) (n : Vec3) (ow : Bool) (ri : ℝ)
    (ray : Ray) (g : ℕ → ℝ) (k : ℕ) :
    (HitRecord.mk p t n ow (Material.Glass ri)).scatter ray g k
      = (if glassRatio ow ri * glassSin ray n > 1
         then (some (Ray.mk p (ray.direction.normalize.reflect n), frgb 1 1 1), k)
         else if g k < schlick (glassCos ray n) ri
         then (some (Ray.mk p (ray.direction.normalize.reflect n), frgb 1 1 1), k + 1)
         else (some (Ray.mk p (refract ray.direction.normalize n (glassRatio ow ri)),
           frgb 1 1 1), k + 1)) := rfl

theorem clamp_nonneg (c : ℝ) : 0 ≤ clamp c := by
  unfold clamp; split_ifs <;> linarith

theorem clamp_le_one (c : ℝ) : clamp c ≤ 1 := by
  unfold clamp; split_ifs <;> linarith

/-- On clamped input, the u8 saturation in convert_component is inactive:
the result is exactly the floor of clamp c * 255.999. -/
theorem convert_clamped (c : ℝ) :
    convert_component (clamp c) = (⌊clamp c * 255.999⌋).toNat := by
  unfold convert_component
  have h1 : clamp c * 255.999 ≤ 255.999 := by
    have := clamp_le_one c; nlinarith
  have h2 : (⌊clamp c * 255.999⌋ : ℤ) ≤ 255 := by
    have h3 := Int.floor_le_floor h1
    exact h3.trans (by norm_num)
  rw [min_eq_right h2]

/-- C4: `Image::set` with out-of-range x does NOT fail fast.  On a 2×2
image, `set(3, 0, color)` with x = 3 ≥ width = 2 writes bytes 12..15 —
exactly the slot of pixel (1, 1) — and returns normally; indeed it returns
the very image that the in-range call `set(1, 1, color)` produces.  This
contradicts the claim (and the method's own doc comment, which promises a
panic on out-of-bounds pixels). -/
theorem image_set_out_of_range_silent_write :
    (Image.empty 2 2).width ≤ 3 ∧
    Image.set (Image.empty 2 2) 3 0 ⟨9, 9, 9, 9⟩
      = some ⟨[0, 0, 0, 0, 0, 0, 0, 0, 0, 0, 0, 0, 9, 9, 9, 9], 2, 2⟩ ∧
    Image.set (Image.empty 2 2) 3 0 ⟨9, 9, 9, 9⟩
      = Image.set (Image.empty 2 2) 1 1 ⟨9, 9, 9, 9⟩ := by
  refine ⟨by decide, by decide, by decide⟩

/-- C8 counterexample: converting `frgb(0.5, 0.5, 0.5)` gives channel 127,
but the claimed formula `round(clamp(0.5)·255.999)` gives 128, so the
claimed round-trip equality fails at r = g = b = 0.5. -/
theorem rgba_roundtrip_round_counterexample :
    (RGBA.ofFRGBA (frgb (1/2) (1/2) (1/2))).r = 127 ∧
    (round (clamp ((1:ℝ)/2) * 255.999)).toNat = 128 ∧
    (RGBA.ofFRGBA (frgb (1/2) (1/2) (1/2))).r
      ≠ (round (clamp ((1:ℝ)/2) * 255.999)).toNat := by
  have hc : clamp ((1:ℝ)/2) = 1/2 := by unfold clamp; norm_num
  have h1 : (RGBA.ofFRGBA (frgb (1/2) (1/2) (1/2))).r = 127 := by
    show convert_component (clamp (1/2)) = 127
    rw [hc]; unfold convert_component; norm_num; rfl
  have h2 : (round (clamp ((1:ℝ)/2) * 255.999)).toNat = 128 := by
    rw [hc, round_eq]
    norm_num
    rfl
  exact ⟨h1, h2, by rw [h1, h2]; norm_num⟩

/-- C8 amended: for every channel value in {0, 0.5, 1}, converting
`frgb(r, g, b)` through `RGBA::from` yields channels equal to
`floor(clamp(c)·255.999)` (not `round`), with alpha 255. -/
theorem rgba_roundtrip_floor (r g b : ℝ)
    (hr : r = 0 ∨ r = 1/2 ∨ r = 1) (hg : g = 0 ∨ g = 1/2 ∨ g = 1)
    (hb : b = 0 ∨ b = 1/2 ∨ b = 1) :
    RGBA.ofFRGBA (frgb r g b)
      = ⟨(⌊clamp r * 255.999⌋).toNat, (⌊clamp g * 255.999⌋).toNat,
         (⌊clamp b * 255.999⌋).toNat, 255⟩ := by
  show RGBA.mk (convert_component (clamp r)) (convert_component (clamp g))
      (convert_component (clamp b)) (convert_component 1) = _
  rw [convert_clamped, convert_clamped, convert_clamped]
  have ha : convert_component 1 = 255 := by
    unfold convert_component; norm_num; rfl
  rw [ha]

/-- Witness for the amended C8 claim at r = g = b = 0.5: the result is the
pixel (127, 127, 127, 255), matching the spec's own example. -/
theorem rgba_roundtrip_floor_witness :
    RGBA.ofFRGBA (frgb (1/2) (1/2) (1/2)) = ⟨127, 127, 127, 255⟩ := by
  rw [rgba_roundtrip_floor (1/2) (1/2) (1/2) (by norm_num) (by norm_num) (by norm_num)]
  have hc : clamp ((1:ℝ)/2) = 1/2 := by unfold clamp; norm_num
  rw [hc]
  norm_num
  try exact ⟨rfl, rfl, rfl⟩
  try rfl

theorem Vec3.len2_nonneg (v : Vec3) : 0 ≤ v.len2 := by
  unfold Vec3.len2 Vec3.dot
  nlinarith [mul_self_nonneg v.x, mul_self_nonneg v.y, mul_self_nonneg v.z]

theorem Vec3.len2_pos (v : Vec3) (h : v ≠ ⟨0, 0, 0⟩) : 0 < v.len2 := by
  rcases (Vec3.len2_nonneg v).lt_or_eq with hlt | heq
  · exact hlt
  · exfalso
    apply h
    obtain ⟨x, y, z⟩ := v
    have h0 : x * x + y * y + z * z = 0 := heq.symm
    have hx : x = 0 := by nlinarith
    have hy : y = 0 := by nlinarith
    have hz : z = 0 := by nlinarith
    simp [hx, hy, hz]

theorem rangeContains_coe (a b x : ℝ) :
    rangeContains ((a : ℝ) : WithTop ℝ) ((b : ℝ) : WithTop ℝ) x ↔ a ≤ x ∧ x < b := by
  unfold rangeContains
  rw [WithTop.coe_le_coe, WithTop.coe_lt_coe]

theorem rangeContains_top (a x : ℝ) :
    rangeContains ((a : ℝ) : WithTop ℝ) ⊤ x ↔ a ≤ x := by
  unfold rangeContains
  simp [WithTop.coe_lt_top, WithTop.coe_le_coe]

/-- C2: for a sphere of positive radius, a ray with nonzero direction and
bounds t_min < t_max, Sphere::hit returns nothing when the discriminant is
negative; otherwise the roots satisfy t1 ≤ t2 and the hit is t1 when t1
lies in [t_min, t_max), else t2 when t2 does, else nothing — that is, the
smallest root in the interval, preferring t1. -/
theorem sphere_hit_root_selection (s : Sphere) (ray : Ray) (t_min t_max : ℝ)
    (hr : 0 < s.radius) (hd : ray.direction ≠ ⟨0, 0, 0⟩) (hlt : t_min < t_max) :
    (sphereDiscrim s ray < 0 → s.hit ray ↑t_min ↑t_max = none) ∧
    (0 ≤ sphereDiscrim s ray →
      sphereT1 s ray ≤ sphereT2 s ray ∧
      (rangeContains ↑t_min ↑t_max (sphereT1 s ray) →
        ∃ rec, s.hit ray ↑t_min ↑t_max = some rec ∧ rec.t = sphereT1 s ray) ∧
      (¬ rangeContains ↑t_min ↑t_max (sphereT1 s ray) →
        rangeContains ↑t_min ↑t_max (sphereT2 s ray) →
        ∃ rec, s.hit ray ↑t_min ↑t_max = some rec ∧ rec.t = sphereT2 s ray) ∧
      (¬ rangeContains ↑t_min ↑t_max (sphereT1 s ray) →
        ¬ rangeContains ↑t_min ↑t_max (sphereT2 s ray) →
        s.hit ray ↑t_min ↑t_max = none)) := by
  have ha : 0 < sphereA ray := Vec3.len2_pos ray.direction hd
  constructor
  · intro hneg
    unfold Sphere.hit
    rw [if_pos hneg]
  · intro hpos
    refine ⟨?_, ?_, ?_, ?_⟩
    · rw [sphereT1, sphereT2]
      exact (div_le_div_iff_of_pos_right ha).mpr
        (by linarith [Real.sqrt_nonneg (sphereDiscrim s ray)])
    · intro h1
      unfold Sphere.hit
      rw [if_neg (not_lt.mpr hpos), if_pos h1]
      exact ⟨_, rfl, rfl⟩
    · intro h1 h2
      unfold Sphere.hit
      rw [if_neg (not_lt.mpr hpos), if_neg h1, if_pos h2]
      exact ⟨_, rfl, rfl⟩
    · intro h1 h2
      unfold Sphere.hit
      rw [if_neg (not_lt.mpr hpos), if_neg h1, if_neg h2]

theorem mSphere_discrim : sphereDiscrim mSphere ray0 = 1 := by
  unfold sphereDiscrim sphereHalfB sphereA sphereC mSphere ray0
  rw [Vec3.sub_def]
  unfold Vec3.len2 Vec3.dot
  norm_num

theorem mSphere_t1 : sphereT1 mSphere ray0 = 1 := by
  unfold sphereT1
  rw [mSphere_discrim, Real.sqrt_one]
  unfold sphereHalfB sphereA mSphere ray0
  rw [Vec3.sub_def]
  unfold Vec3.len2 Vec3.dot
  norm_num

theorem mSphere_t2 : sphereT2 mSphere ray0 = 3 := by
  unfold sphereT2
  rw [mSphere_discrim, Real.sqrt_one]
  unfold sphereHalfB sphereA mSphere ray0
  rw [Vec3.sub_def]
  unfold Vec3.len2 Vec3.dot
  norm_num

theorem ray0_dir_ne : ray0.direction ≠ (⟨0, 0, 0⟩ : Vec3) := by
  unfold ray0
  intro h
  have hz := congrArg Vec3.z h
  norm_num at hz

/-- Witness for C2 at a concrete sphere and ray: the ray from the origin
toward (0,0,-1) hits the unit sphere centered at (0,0,-2) within bounds
[0, 10) at the nearer root t = 1. -/
theorem sphere_hit_root_selection_witness :
    ∃ rec, Sphere.hit mSphere ray0 ((0 : ℝ) : WithTop ℝ) ((10 : ℝ) : WithTop ℝ)
      = some rec ∧ rec.t = 1 := by
  have h := ((sphere_hit_root_selection mSphere ray0 0 10 (by norm_num [mSphere])
    ray0_dir_ne (by norm_num)).2 (by rw [mSphere_discrim]; norm_num)).2.1
    ((rangeContains_coe 0 10 _).mpr (by rw [mSphere_t1]; norm_num))
  obtain ⟨rec, h1, h2⟩ := h
  exact ⟨rec, h1, by rw [h2, mSphere_t1]⟩

theorem sphereRecord_t (s : Sphere) (ray : Ray) (sol : ℝ) :
    (sphereRecord s ray sol).t = sol := rfl

theorem sphereT1_le_sphereT2 (s : Sphere) (ray : Ray) (ha : 0 < sphereA ray) :
    sphereT1 s ray ≤ sphereT2 s ray := by
  rw [sphereT1, sphereT2]
  exact (div_le_div_iff_of_pos_right ha).mpr
    (by linarith [Real.sqrt_nonneg (sphereDiscrim s ray)])

/-- Sphere::hit is lawful for its candidate roots: on every query window it
returns the smallest root inside the window. -/
theorem sphere_lawful (s : Sphere) (ray : Ray) (ha : 0 < sphereA ray) :
    Lawful s.hit ray (sphereCands s ray) := by
  intro tmin tmax
  by_cases hd : sphereDiscrim s ray < 0
  · left
    unfold Sphere.hit sphereCands
    rw [if_pos hd, if_pos hd]
    exact ⟨rfl, by simp⟩
  · have ht12 := sphereT1_le_sphereT2 s ray ha
    unfold sphereCands
    rw [if_neg hd]
    by_cases h1 : rangeContains tmin tmax (sphereT1 s ray)
    · right
      refine ⟨sphereRecord s ray (sphereT1 s ray), ?_, ?_, h1, ?_⟩
      · unfold Sphere.hit
        rw [if_neg hd, if_pos h1]
      · exact List.mem_cons_self _ _
      · intro x hx hxr
        rw [sphereRecord_t]
        rcases List.mem_cons.mp hx with h | h
        · rw [h]
        · rw [List.mem_singleton.mp h]
          exact ht12
    · by_cases h2 : rangeContains tmin tmax (sphereT2 s ray)
      · right
        refine ⟨sphereRecord s ray (sphereT2 s ray), ?_, ?_, h2, ?_⟩
        · unfold Sphere.hit
          rw [if_neg hd, if_neg h1, if_pos h2]
        · simp [sphereRecord_t]
        · intro x hx hxr
          rw [sphereRecord_t]
          rcases List.mem_cons.mp hx with h | h
          · exact absurd (h ▸ hxr) h1
          · rw [List.mem_singleton.mp h]
      · left
        constructor
        · unfold Sphere.hit
          rw [if_neg hd, if_neg h1, if_neg h2]
        · intro x hx
          rcases List.mem_cons.mp hx with h | h
          · exact h ▸ h1
          · exact (List.mem_singleton.mp h) ▸ h2

theorem HLState_mono {t_min T : WithTop ℝ} {c1 c2 : ℝ → Prop}
    (hiff : ∀ x, c1 x ↔ c2 x) {st : Option HitRecord × WithTop ℝ}
    (h : HLState t_min T c1 st) : HLState t_min T c2 st := by
  rcases h with ⟨h1, h2, h3⟩ | ⟨rec, h1, h2, h3, h4, h5⟩
  · exact Or.inl ⟨h1, h2, fun x hx => h3 x ((hiff x).mpr hx)⟩
  · exact Or.inr ⟨rec, h1, h2, (hiff _).mp h3, h4,
      fun x hx => h5 x ((hiff x).mpr hx)⟩

/-- One step of HittableList::hit's loop preserves the minimum-so-far
invariant, extending the seen candidates by the member's list. -/
theorem hlStep_state {ray : Ray} {t_min T : WithTop ℝ} {cands : ℝ → Prop}
    {h : Hittable} {ts : List ℝ} (hlaw : Lawful h ray ts)
    {st : Option HitRecord × WithTop ℝ} (hst : HLState t_min T cands st) :
    HLState t_min T (fun x => cands x ∨ x ∈ ts) (hlStep ray t_min st h) := by
  rcases hst with ⟨h0, hT, hmax⟩ | ⟨rec0, h0, hT, hc0, hr0, hmin0⟩
  · rcases hlaw t_min st.2 with ⟨hn, hts⟩ | ⟨rec, hs, htm, hrr, hm⟩
    · left
      unfold hlStep
      rw [hn]
      refine ⟨h0, hT, fun x hx => ?_⟩
      rcases hx with hx | hx
      · exact hmax x hx
      · exact hT ▸ hts x hx
    · right
      unfold hlStep
      rw [hs]
      refine ⟨rec, rfl, rfl, Or.inr htm, hT ▸ hrr, fun x hx hxr => ?_⟩
      rcases hx with hx | hx
      · exact absurd hxr (hmax x hx)
      · exact hm x hx (hT ▸ hxr)
  · have hT2 : st.2 = (rec0.t : WithTop ℝ) := hT
    rcases hlaw t_min st.2 with ⟨hn, hts⟩ | ⟨rec, hs, htm, hrr, hm⟩
    · right
      unfold hlStep
      rw [hn]
      refine ⟨rec0, h0, hT, Or.inl hc0, hr0, fun x hx hxr => ?_⟩
      rcases hx with hx | hx
      · exact hmin0 x hx hxr
      · have hnx := hts x hx
        rw [hT2] at hnx
        unfold rangeContains at hnx hxr
        push_neg at hnx
        exact_mod_cast hnx hxr.1
    · right
      unfold hlStep
      rw [hs]
      have hlt : (rec.t : WithTop ℝ) < (rec0.t : WithTop ℝ) := by
        have h5 := hrr.2
        rw [hT2] at h5
        exact h5
      have hrT : rangeContains t_min T rec.t := ⟨hrr.1, lt_trans hlt hr0.2⟩
      refine ⟨rec, rfl, rfl, Or.inr htm, hrT, fun x hx hxr => ?_⟩
      rcases hx with hx | hx
      · have h5 := hmin0 x hx hxr
        have hlt2 : rec.t < rec0.t := by exact_mod_cast hlt
        linarith
      · by_cases hxs : (x : WithTop ℝ) < (rec0.t : WithTop ℝ)
        · exact hm x hx (by rw [hT2]; exact ⟨hxr.1, hxs⟩)
        · have h5 : rec0.t ≤ x := by
            have h6 := not_lt.mp hxs
            exact_mod_cast h6
          have hlt2 : rec.t < rec0.t := by exact_mod_cast hlt
          linarith

/-- Folding the loop body over a list of lawful members preserves the
invariant, accumulating all their candidates. -/
theorem foldl_state {ray : Ray} {t_min T : WithTop ℝ} :
    ∀ (l : List (Hittable × List ℝ)) (cands : ℝ → Prop)
      (st : Option HitRecord × WithTop ℝ),
      (∀ p ∈ l, Lawful p.1 ray p.2) → HLState t_min T cands st →
      HLState t_min T (fun x => cands x ∨ x ∈ l.flatMap Prod.snd)
        (List.foldl (hlStep ray t_min) st (l.map Prod.fst)) := by
  intro l
  induction l with
  | nil =>
    intro cands st _ h
    exact HLState_mono (by simp) h
  | cons p l ih =>
    intro cands st hl h
    have h1 := hlStep_state (hl p (List.mem_cons_self p l)) h
    have h2 := ih (fun x => cands x ∨ x ∈ p.2) (hlStep ray t_min st p.1)
      (fun q hq => hl q (List.mem_cons_of_mem p hq)) h1
    refine HLState_mono ?_ h2
    intro x
    simp [or_assoc]

/-- HittableList::hit over lawful members returns the minimum candidate in
the window over all members, or nothing when no candidate is in the
window. -/
theorem hittableListHit_char (ray : Ray) (t_min t_max : WithTop ℝ)
    (l : List (Hittable × List ℝ)) (hl : ∀ p ∈ l, Lawful p.1 ray p.2) :
    (hittableListHit (l.map Prod.fst) ray t_min t_max = none ∧
      ∀ x ∈ l.flatMap Prod.snd, ¬ rangeContains t_min t_max x) ∨
    (∃ rec, hittableListHit (l.map Prod.fst) ray t_min t_max = some rec ∧
      rec.t ∈ l.flatMap Prod.snd ∧ rangeContains t_min t_max rec.t ∧
      ∀ x ∈ l.flatMap Prod.snd, rangeContains t_min t_max x → rec.t ≤ x) := by
  have h0 : HLState t_min t_max (fun _ => False) ((none, t_max) :
      Option HitRecord × WithTop ℝ) :=
    Or.inl ⟨rfl, rfl, fun x hx => absurd hx not_false⟩
  have h := foldl_state l (fun _ => False) (none, t_max) hl h0
  unfold hittableListHit
  rcases h with ⟨h1, _, h3⟩ | ⟨rec, h1, _, h3, h4, h5⟩
  · exact Or.inl ⟨h1, fun x hx => h3 x (Or.inr hx)⟩
  · refine Or.inr ⟨rec, h1, ?_, h4, fun x hx hxr => h5 x (Or.inr hx) hxr⟩
    rcases h3 with h3 | h3
    · exact absurd h3 not_false
    · exact h3

/-- C3: over lawful members (in particular spheres), HittableList::hit
returns the hit with the globally smallest valid t, or nothing when no
member has a candidate in the window, and the resulting t is invariant
under permutation of the list. -/
theorem hittableList_closest_order_independent (ray : Ray) (t_min t_max : ℝ)
    (hlt : t_min < t_max) (l l2 : List (Hittable × List ℝ)) (hperm : l.Perm l2)
    (hl : ∀ p ∈ l, Lawful p.1 ray p.2) :
    (Option.map HitRecord.t (hittableListHit (l.map Prod.fst) ray ↑t_min ↑t_max)
      = Option.map HitRecord.t (hittableListHit (l2.map Prod.fst) ray ↑t_min ↑t_max)) ∧
    (hittableListHit (l.map Prod.fst) ray ↑t_min ↑t_max = none ↔
      ∀ x ∈ l.flatMap Prod.snd, ¬ rangeContains ↑t_min ↑t_max x) ∧
    (∀ rec, hittableListHit (l.map Prod.fst) ray ↑t_min ↑t_max = some rec →
      rec.t ∈ l.flatMap Prod.snd ∧ rangeContains ↑t_min ↑t_max rec.t ∧
      ∀ x ∈ l.flatMap Prod.snd, rangeContains ↑t_min ↑t_max x → rec.t ≤ x) := by
  have hl2 : ∀ p ∈ l2, Lawful p.1 ray p.2 := fun p hp => hl p (hperm.mem_iff.mpr hp)
  have hmem : ∀ x : ℝ, x ∈ l.flatMap Prod.snd ↔ x ∈ l2.flatMap Prod.snd := by
    intro x
    simp only [List.mem_flatMap]
    constructor
    · rintro ⟨a, ha, hx⟩
      exact ⟨a, hperm.mem_iff.mp ha, hx⟩
    · rintro ⟨a, ha, hx⟩
      exact ⟨a, hperm.mem_iff.mpr ha, hx⟩
  have char1 := hittableListHit_char ray ↑t_min ↑t_max l hl
  have char2 := hittableListHit_char ray ↑t_min ↑t_max l2 hl2
  refine ⟨?_, ?_, ?_⟩
  · rcases char1 with ⟨h1, h1c⟩ | ⟨rec, h1, h1m, h1r, h1min⟩
    · rcases char2 with ⟨h2, h2c⟩ | ⟨rec2, h2, h2m, h2r, h2min⟩
      · rw [h1, h2]
      · exact absurd h2r (h1c rec2.t ((hmem rec2.t).mpr h2m))
    · rcases char2 with ⟨h2, h2c⟩ | ⟨rec2, h2, h2m, h2r, h2min⟩
      · exact absurd h1r (h2c rec.t ((hmem rec.t).mp h1m))
      · rw [h1, h2]
        have ha := h1min rec2.t ((hmem rec2.t).mpr h2m) h2r
        have hb := h2min rec.t ((hmem rec.t).mp h1m) h1r
        simp [le_antisymm ha hb]
  · rcases char1 with ⟨h1, h1c⟩ | ⟨rec, h1, h1m, h1r, h1min⟩
    · exact ⟨fun _ => h1c, fun _ => h1⟩
    · constructor
      · intro hnone
        rw [h1] at hnone
        exact absurd hnone (by simp)
      · intro hall
        exact absurd h1r (hall rec.t h1m)
  · intro rec hrec
    rcases char1 with ⟨h1, h1c⟩ | ⟨rec1, h1, h1m, h1r, h1min⟩
    · rw [h1] at hrec
      exact absurd hrec (by simp)
    · rw [h1] at hrec
      obtain rfl : rec1 = rec := Option.some.inj hrec
      exact ⟨h1m, h1r, h1min⟩

theorem sphereA_ray0 : sphereA ray0 = 1 := by
  unfold sphereA ray0 Vec3.len2 Vec3.dot
  norm_num

/-- Witness for C3 at two concrete overlapping spheres queried in both
insertion orders over the window [0, 10): the resulting hit parameter is
the same. -/
theorem hittableList_closest_order_independent_witness :
    Option.map HitRecord.t (hittableListHit [Sphere.hit mSphere, Sphere.hit bSphere]
        ray0 ((0 : ℝ) : WithTop ℝ) ((10 : ℝ) : WithTop ℝ))
      = Option.map HitRecord.t (hittableListHit [Sphere.hit bSphere, Sphere.hit mSphere]
        ray0 ((0 : ℝ) : WithTop ℝ) ((10 : ℝ) : WithTop ℝ)) := by
  have hperm : List.Perm
      [(Sphere.hit mSphere, sphereCands mSphere ray0),
       (Sphere.hit bSphere, sphereCands bSphere ray0)]
      [(Sphere.hit bSphere, sphereCands bSphere ray0),
       (Sphere.hit mSphere, sphereCands mSphere ray0)] :=
    List.Perm.swap _ _ _
  have hl : ∀ p ∈ [(Sphere.hit mSphere, sphereCands mSphere ray0),
      (Sphere.hit bSphere, sphereCands bSphere ray0)], Lawful p.1 ray0 p.2 := by
    intro p hp
    rcases List.mem_cons.mp hp with h | h
    · rw [h]
      exact sphere_lawful mSphere ray0 (by rw [sphereA_ray0]; norm_num)
    · rw [List.mem_singleton.mp h]
      exact sphere_lawful bSphere ray0 (by rw [sphereA_ray0]; norm_num)
  exact (hittableList_closest_order_independent ray0 0 10 (by norm_num) _ _ hperm hl).1

/-- C6: every HitRecord built by `HitRecord::new` has `outwards` true iff
the incoming direction opposes the outward normal, stores the outward
normal or its negation accordingly, and hence its stored normal points
into the half-space the ray came from (nonpositive dot product). -/
theorem hitrecord_new_normal_orientation (t : ℝ) (p : Point3) (ray : Ray)
    (out_normal : Vec3) (m : Material) :
    ((HitRecord.new t p ray out_normal m).outwards = true
        ↔ ray.direction.dot out_normal < 0) ∧
    (HitRecord.new t p ray out_normal m).normal
        = (if ray.direction.dot out_normal < 0 then out_normal else -out_normal) ∧
    ray.direction.dot (HitRecord.new t p ray out_normal m).normal ≤ 0 := by
  unfold HitRecord.new
  by_cases h : ray.direction.dot out_normal < 0
  · simp [h]
    linarith
  · simp [h, Vec3.dot_neg_right]
    linarith [not_lt.mp h]

/-- C7: scatter is total for Diffuse (attenuation = albedo) and Glass
(attenuation = opaque white); for Metal it returns None exactly when the
fuzz-perturbed reflected direction satisfies `scattered · normal ≤ 0`, and
otherwise returns the scattered ray with attenuation = albedo. -/
theorem scatter_totality (p : Point3) (t : ℝ) (n : Vec3) (ow : Bool) (ray : Ray)
    (g : ℕ → ℝ) (k : ℕ) :
    (∀ albedo : FRGBA,
      (HitRecord.mk p t n ow (Material.Diffuse albedo)).scatter ray g k
        = (some (Ray.mk p (n + unit_rand (g k) (g (k + 1))), albedo), k + 2)) ∧
    (∀ (albedo : FRGBA) (fuzz : ℝ),
      ((HitRecord.mk p t n ow (Material.Metal albedo fuzz)).scatter ray g k).1 = none
        ↔ (ray.direction.reflect n + unit_rand (g k) (g (k + 1)) * fuzz).dot n ≤ 0) ∧
    (∀ (albedo : FRGBA) (fuzz : ℝ),
      (ray.direction.reflect n + unit_rand (g k) (g (k + 1)) * fuzz).dot n ≤ 0 ∨
      (HitRecord.mk p t n ow (Material.Metal albedo fuzz)).scatter ray g k
        = (some (Ray.mk p (ray.direction.reflect n + unit_rand (g k) (g (k + 1)) * fuzz),
            albedo), k + 2)) ∧
    (∀ ri : ℝ, ∃ (r1 : Ray) (k1 : ℕ),
      (HitRecord.mk p t n ow (Material.Glass ri)).scatter ray g k
        = (some (r1, frgb 1 1 1), k1)) := by
  refine ⟨fun albedo => scatter_diffuse_eq p t n ow albedo ray g k,
    fun albedo fuzz => ?_, fun albedo fuzz => ?_, fun ri => ?_⟩
  · rw [scatter_metal_eq]
    by_cases h : (ray.direction.reflect n + unit_rand (g k) (g (k + 1)) * fuzz).dot n > 0
    · simp [h]
    · simp [h]
      exact not_lt.mp h
  · by_cases h : (ray.direction.reflect n + unit_rand (g k) (g (k + 1)) * fuzz).dot n > 0
    · right
      rw [scatter_metal_eq, if_pos h]
    · left
      exact not_lt.mp h
  · rw [scatter_glass_eq]
    split_ifs <;> exact ⟨_, _, rfl⟩

/-- Every value the bounce loop returns is built by `frgb` (both the
black/background exits and, recursively, every continuation). -/
theorem rayColorGo_eq_frgb (w : Hittable) (g : ℕ → ℝ) :
    ∀ (d : ℕ) (ray : Ray) (color : FRGBA) (k : ℕ),
      ∃ cr cg cb, rayColorGo w g d ray color k = frgb cr cg cb := by
  intro d
  induction d with
  | zero => exact fun ray color k => ⟨0, 0, 0, rfl⟩
  | succ d ih =>
    intro ray color k
    rw [rayColorGo]
    cases hw : w ray ((0.0001 : ℝ) : WithTop ℝ) ⊤ with
    | none => exact ⟨_, _, _, rfl⟩
    | some rec =>
      rcases hs : rec.scatter ray g k with ⟨o, k1⟩
      cases o with
      | none => simp only [hs]; exact ih ray color k1
      | some pr =>
        obtain ⟨sc, att⟩ := pr
        simp only [hs]
        exact ih sc _ k1

/-- C9: frgb clamps its channels to [0, 1] and sets alpha to exactly 1;
consequently every color ray_color produces has channels in [0, 1] and
alpha 1; and `SampledColor::result` is exactly the divide-then-sqrt
formula, with no clamping of its own. -/
theorem frgb_clamps_ray_color_in_unit_range :
    (∀ r g b : ℝ,
      0 ≤ (frgb r g b).r ∧ (frgb r g b).r ≤ 1 ∧
      0 ≤ (frgb r g b).g ∧ (frgb r g b).g ≤ 1 ∧
      0 ≤ (frgb r g b).b ∧ (frgb r g b).b ≤ 1 ∧ (frgb r g b).a = 1) ∧
    (∀ (world : Hittable) (g : ℕ → ℝ) (depth : ℕ) (ray : Ray),
      0 ≤ (ray_color ray world depth g).r ∧ (ray_color ray world depth g).r ≤ 1 ∧
      0 ≤ (ray_color ray world depth g).g ∧ (ray_color ray world depth g).g ≤ 1 ∧
      0 ≤ (ray_color ray world depth g).b ∧ (ray_color ray world depth g).b ≤ 1 ∧
      (ray_color ray world depth g).a = 1) ∧
    (∀ s : SampledColor,
      s.result = ⟨Real.sqrt (s.acc.r / (s.samples : ℝ)),
        Real.sqrt (s.acc.g / (s.samples : ℝ)),
        Real.sqrt (s.acc.b / (s.samples : ℝ)), s.acc.a / (s.samples : ℝ)⟩) := by
  have hf : ∀ r g b : ℝ,
      0 ≤ (frgb r g b).r ∧ (frgb r g b).r ≤ 1 ∧
      0 ≤ (frgb r g b).g ∧ (frgb r g b).g ≤ 1 ∧
      0 ≤ (frgb r g b).b ∧ (frgb r g b).b ≤ 1 ∧ (frgb r g b).a = 1 :=
    fun r g b => ⟨clamp_nonneg r, clamp_le_one r, clamp_nonneg g, clamp_le_one g,
      clamp_nonneg b, clamp_le_one b, rfl⟩
  refine ⟨hf, fun world g depth ray => ?_, fun s => rfl⟩
  obtain ⟨cr, cg, cb, h⟩ := rayColorGo_eq_frgb world g depth ray (frgb 1 1 1) 0
  rw [ray_color, h]
  exact hf cr cg cb

theorem sphere_hit_t_ge (s : Sphere) (ray : Ray) (tmin tmax : WithTop ℝ)
    (rec : HitRecord) (h : s.hit ray tmin tmax = some rec) :
    tmin ≤ (rec.t : WithTop ℝ) := by
  unfold Sphere.hit at h
  split_ifs at h with h1 h2 h3
  all_goals rw [← Option.some.inj h, sphereRecord_t]
  · exact h2.1
  · exact h3.1

theorem foldl_t_ge (ray : Ray) (tmin : WithTop ℝ) :
    ∀ (l : List Hittable) (st : Option HitRecord × WithTop ℝ),
      (∀ h ∈ l, ∀ (tmax2 : WithTop ℝ) (rec : HitRecord),
        h ray tmin tmax2 = some rec → tmin ≤ (rec.t : WithTop ℝ)) →
      (st.1 = none ∨ ∃ r0, st.1 = some r0 ∧ tmin ≤ (r0.t : WithTop ℝ)) →
      ((List.foldl (hlStep ray tmin) st l).1 = none ∨
        ∃ r, (List.foldl (hlStep ray tmin) st l).1 = some r ∧
          tmin ≤ (r.t : WithTop ℝ)) := by
  intro l
  induction l with
  | nil => intro st _ h; exact h
  | cons hd l ih =>
    intro st hresp hst
    have hnext : (hlStep ray tmin st hd).1 = none ∨
        ∃ r0, (hlStep ray tmin st hd).1 = some r0 ∧ tmin ≤ (r0.t : WithTop ℝ) := by
      unfold hlStep
      cases hq : hd ray tmin st.2 with
      | none => exact hst
      | some rec =>
        exact Or.inr ⟨rec, rfl, hresp hd (List.mem_cons_self hd l) st.2 rec hq⟩
    exact ih (hlStep ray tmin st hd) (fun q hq => hresp q (List.mem_cons_of_mem hd hq))
      hnext

/-- The bounce loop's value depends on the world only through queries at
the fixed bounds t_min = 0.0001 and t_max = ∞. -/
theorem rayColorGo_congr (w1 w2 : Hittable)
    (hagree : ∀ r : Ray, w1 r ((0.0001 : ℝ) : WithTop ℝ) ⊤
      = w2 r ((0.0001 : ℝ) : WithTop ℝ) ⊤) (g : ℕ → ℝ) :
    ∀ (d : ℕ) (ray : Ray) (color : FRGBA) (k : ℕ),
      rayColorGo w1 g d ray color k = rayColorGo w2 g d ray color k := by
  intro d
  induction d with
  | zero => intro ray color k; rfl
  | succ d ih =>
    intro ray color k
    rw [rayColorGo, rayColorGo, hagree ray]
    cases hw : w2 ray ((0.0001 : ℝ) : WithTop ℝ) ⊤ with
    | none => rfl
    | some rec =>
      rcases hs : rec.scatter ray g k with ⟨o, k1⟩
      cases o with
      | none => simp only [hs]; exact ih ray color k1
      | some pr =>
        obtain ⟨sc, att⟩ := pr
        simp only [hs]
        exact ih sc _ k1

/-- C10: ray_color queries the scene only at the fixed bounds
t_min = 0.0001 and t_max = ∞ (two worlds agreeing on those queries give
identical ray_color on every ray and depth), and a scene of spheres
queried at those bounds never reports a hit with t < 0.0001. -/
theorem ray_color_fixed_bounds :
    (∀ w1 w2 : Hittable,
      (∀ r : Ray, w1 r ((0.0001 : ℝ) : WithTop ℝ) ⊤
        = w2 r ((0.0001 : ℝ) : WithTop ℝ) ⊤) →
      ∀ (g : ℕ → ℝ) (d : ℕ) (ray : Ray),
        ray_color ray w1 d g = ray_color ray w2 d g) ∧
    (∀ (l : List Sphere) (ray : Ray) (rec : HitRecord),
      hittableListHit (l.map Sphere.hit) ray ((0.0001 : ℝ) : WithTop ℝ) ⊤
        = some rec → (0.0001 : ℝ) ≤ rec.t) := by
  constructor
  · intro w1 w2 hagree g d ray
    exact rayColorGo_congr w1 w2 hagree g d ray (frgb 1 1 1) 0
  · intro l ray rec hrec
    have hresp : ∀ h ∈ l.map Sphere.hit, ∀ (tmax2 : WithTop ℝ) (r : HitRecord),
        h ray ((0.0001 : ℝ) : WithTop ℝ) tmax2 = some r →
        ((0.0001 : ℝ) : WithTop ℝ) ≤ (r.t : WithTop ℝ) := by
      intro h hh tmax2 r hr
      obtain ⟨s, _, rfl⟩ := List.mem_map.mp hh
      exact sphere_hit_t_ge s ray _ tmax2 r hr
    have h := foldl_t_ge ray ((0.0001 : ℝ) : WithTop ℝ) (l.map Sphere.hit)
      (none, ⊤) hresp (Or.inl rfl)
    unfold hittableListHit at hrec
    rcases h with h | ⟨r, h1, h2⟩
    · rw [hrec] at h
      exact absurd h (by simp)
    · have h3 : some r = some rec := h1.symm.trans hrec
      obtain rfl : r = rec := Option.some.inj h3
      exact_mod_cast h2

theorem unit_rand_00 : unit_rand 0 0 = ⟨0, 0, -1⟩ := by
  unfold unit_rand rand_range
  norm_num

theorem unit_rand_01 : unit_rand 0 1 = ⟨0, 0, 1⟩ := by
  unfold unit_rand rand_range
  norm_num

/-- `mSphere` hit by `ray0` with bounds [0.0001, ∞) yields `mRec`:
t = 1, point (0,0,-1), outward normal (0,0,1), front face. -/
theorem mSphere_hit_eval :
    Sphere.hit mSphere ray0 ((0.0001 : ℝ) : WithTop ℝ) ⊤ = some mRec := by
  have h1 : rangeContains ((0.0001 : ℝ) : WithTop ℝ) ⊤ (sphereT1 mSphere ray0) := by
    rw [mSphere_t1]
    exact (rangeContains_top _ _).mpr (by norm_num)
  unfold Sphere.hit
  rw [if_neg (by rw [mSphere_discrim]; norm_num), if_pos h1, mSphere_t1]
  have hat : ray0.at 1 = (⟨0, 0, -1⟩ : Vec3) := by
    unfold Ray.at ray0
    rw [Vec3.hmul_def, Vec3.add_def]
    norm_num
  unfold sphereRecord
  rw [hat]
  have hn : (((⟨0, 0, -1⟩ : Vec3) - mSphere.center) / mSphere.radius)
      = (⟨0, 0, 1⟩ : Vec3) := by
    unfold mSphere
    rw [Vec3.sub_def, Vec3.hdiv_def, Vec3.hmul_def]
    norm_num
  rw [hn]
  unfold HitRecord.new mRec
  rw [if_pos (by unfold ray0 Vec3.dot; norm_num :
    ray0.direction.dot (⟨0, 0, 1⟩ : Vec3) < 0)]
  simp [mSphere]

/-- Under the stream `gC1`, the first scatter off `mRec` is absorbed: the
fuzzed reflection points into the surface, so Metal returns None. -/
theorem mRec_scatter_absorb : mRec.scatter ray0 gC1 0 = (none, 2) := by
  show (HitRecord.mk ⟨0, 0, -1⟩ 1 ⟨0, 0, 1⟩ true
    (Material.Metal (frgb 1 1 1) 2)).scatter ray0 gC1 0 = (none, 2)
  rw [scatter_metal_eq]
  rw [show gC1 0 = 0 from rfl, show gC1 (0 + 1) = 0 from rfl, unit_rand_00]
  rw [if_neg]
  unfold ray0 Vec3.reflect
  rw [Vec3.dot]
  norm_num
  rw [Vec3.hmul_def, Vec3.sub_def, Vec3.hmul_def, Vec3.add_def, Vec3.dot]
  norm_num

/-- Under the stream `gC1`, the second scatter off the same record
succeeds, bouncing to `ray2`. -/
theorem mRec_scatter_bounce :
    mRec.scatter ray0 gC1 2 = (some (ray2, frgb 1 1 1), 4) := by
  show (HitRecord.mk ⟨0, 0, -1⟩ 1 ⟨0, 0, 1⟩ true
    (Material.Metal (frgb 1 1 1) 2)).scatter ray0 gC1 2
      = (some (ray2, frgb 1 1 1), 4)
  rw [scatter_metal_eq]
  rw [show gC1 2 = 0 from rfl, show gC1 (2 + 1) = 1 from rfl, unit_rand_01]
  have hdir : ray0.direction.reflect ⟨0, 0, 1⟩ + (⟨0, 0, 1⟩ : Vec3) * (2 : ℝ)
      = (⟨0, 0, 3⟩ : Vec3) := by
    unfold ray0 Vec3.reflect
    rw [Vec3.dot]
    norm_num
    rw [Vec3.hmul_def, Vec3.sub_def, Vec3.hmul_def, Vec3.add_def]
    norm_num
  rw [hdir]
  rw [if_pos (by rw [Vec3.dot]; norm_num : (⟨0, 0, 3⟩ : Vec3).dot ⟨0, 0, 1⟩ > 0)]
  rfl

/-- `ray2` starts on the sphere surface and leaves it: both roots are below
t_min = 0.0001, so the sphere reports no hit. -/
theorem mSphere_ray2_none :
    Sphere.hit mSphere ray2 ((0.0001 : ℝ) : WithTop ℝ) ⊤ = none := by
  have hhb : sphereHalfB mSphere ray2 = 3 := by
    unfold sphereHalfB mSphere ray2
    rw [Vec3.sub_def, Vec3.dot]
    norm_num
  have ha : sphereA ray2 = 9 := by
    unfold sphereA ray2 Vec3.len2 Vec3.dot
    norm_num
  have hdisc : sphereDiscrim mSphere ray2 = 9 := by
    unfold sphereDiscrim
    rw [hhb, ha]
    unfold sphereC mSphere ray2
    rw [Vec3.sub_def]
    unfold Vec3.len2 Vec3.dot
    norm_num
  have ht1 : sphereT1 mSphere ray2 = -(2/3) := by
    unfold sphereT1
    rw [hdisc, hhb, ha, show Real.sqrt 9 = 3 by
      rw [show (9 : ℝ) = 3 ^ 2 by norm_num, Real.sqrt_sq (by norm_num : (0:ℝ) ≤ 3)]]
    norm_num
  have ht2 : sphereT2 mSphere ray2 = 0 := by
    unfold sphereT2
    rw [hdisc, hhb, ha, show Real.sqrt 9 = 3 by
      rw [show (9 : ℝ) = 3 ^ 2 by norm_num, Real.sqrt_sq (by norm_num : (0:ℝ) ≤ 3)]]
    norm_num
  unfold Sphere.hit
  rw [if_neg (by rw [hdisc]; norm_num)]
  rw [if_neg, if_neg]
  · rw [ht2, rangeContains_top]
    norm_num
  · rw [ht1, rangeContains_top]
    norm_num

/-- Witness for C10: the concrete scene `[mSphere]` hit by `ray0` at the
fixed bounds reports `mRec`, whose parameter is at least 0.0001. -/
theorem ray_color_fixed_bounds_witness : (0.0001 : ℝ) ≤ mRec.t := by
  have h : hittableListHit ([mSphere].map Sphere.hit) ray0
      ((0.0001 : ℝ) : WithTop ℝ) ⊤ = some mRec := by
    simp [hittableListHit, hlStep, mSphere_hit_eval]
  exact ray_color_fixed_bounds.2 [mSphere] ray0 mRec h

theorem rayColorGo_step_absorb (w : Hittable) (g : ℕ → ℝ) (d : ℕ) (ray : Ray)
    (color : FRGBA) (k : ℕ) (rec : HitRecord) (k1 : ℕ)
    (hw : w ray ((0.0001 : ℝ) : WithTop ℝ) ⊤ = some rec)
    (hs : rec.scatter ray g k = (none, k1)) :
    rayColorGo w g (d + 1) ray color k = rayColorGo w g d ray color k1 := by
  rw [rayColorGo, hw]
  simp only [hs]

theorem rayColorGo_step_scatter (w : Hittable) (g : ℕ → ℝ) (d : ℕ) (ray : Ray)
    (color : FRGBA) (k : ℕ) (rec : HitRecord) (sc : Ray) (att : FRGBA) (k1 : ℕ)
    (hw : w ray ((0.0001 : ℝ) : WithTop ℝ) ⊤ = some rec)
    (hs : rec.scatter ray g k = (some (sc, att), k1)) :
    rayColorGo w g (d + 1) ray color k = rayColorGo w g d sc
      ⟨color.r * att.r, color.g * att.g, color.b * att.b, color.a⟩ k1 := by
  rw [rayColorGo, hw]
  simp only [hs]

theorem rayColorGo_step_background (w : Hittable) (g : ℕ → ℝ) (d : ℕ) (ray : Ray)
    (color : FRGBA) (k : ℕ)
    (hw : w ray ((0.0001 : ℝ) : WithTop ℝ) ⊤ = none) :
    rayColorGo w g (d + 1) ray color k
      = frgb (((frgb 1 1 1).lerp (0.5 * (ray.direction.normalize.y + 1))
            (frgb 0.5 0.7 1)).r * color.r)
          (((frgb 1 1 1).lerp (0.5 * (ray.direction.normalize.y + 1))
            (frgb 0.5 0.7 1)).g * color.g)
          (((frgb 1 1 1).lerp (0.5 * (ray.direction.normalize.y + 1))
            (frgb 0.5 0.7 1)).b * color.b) := by
  rw [rayColorGo, hw]

theorem ray2_normalize_y : ray2.direction.normalize.y = 0 := by
  unfold Vec3.normalize ray2
  rw [Vec3.hdiv_def, Vec3.hmul_def]
  norm_num

/-- The full three-bounce trace: absorbed at bounce one, scattered at
bounce two, background at bounce three, giving the sky-modulated color. -/
theorem ray_color_trace :
    ray_color ray0 mSphere.hit 3 gC1 = frgb 0.75 0.85 1 := by
  have c1 : ray_color ray0 mSphere.hit 3 gC1
      = rayColorGo mSphere.hit gC1 (2 + 1) ray0 (frgb 1 1 1) 0 := rfl
  rw [c1, rayColorGo_step_absorb mSphere.hit gC1 2 ray0 (frgb 1 1 1) 0 mRec 2
    mSphere_hit_eval mRec_scatter_absorb]
  have c2 : rayColorGo mSphere.hit gC1 2 ray0 (frgb 1 1 1) 2
      = rayColorGo mSphere.hit gC1 (1 + 1) ray0 (frgb 1 1 1) 2 := rfl
  rw [c2, rayColorGo_step_scatter mSphere.hit gC1 1 ray0 (frgb 1 1 1) 2 mRec ray2
    (frgb 1 1 1) 4 mSphere_hit_eval mRec_scatter_bounce]
  have c3 : rayColorGo mSphere.hit gC1 1 ray2
        ⟨(frgb 1 1 1).r * (frgb 1 1 1).r, (frgb 1 1 1).g * (frgb 1 1 1).g,
         (frgb 1 1 1).b * (frgb 1 1 1).b, (frgb 1 1 1).a⟩ 4
      = rayColorGo mSphere.hit gC1 (0 + 1) ray2
        ⟨(frgb 1 1 1).r * (frgb 1 1 1).r, (frgb 1 1 1).g * (frgb 1 1 1).g,
         (frgb 1 1 1).b * (frgb 1 1 1).b, (frgb 1 1 1).a⟩ 4 := rfl
  rw [c3, rayColorGo_step_background mSphere.hit gC1 0 ray2 _ 4 mSphere_ray2_none]
  rw [ray2_normalize_y]
  unfold FRGBA.lerp frgb clamp
  norm_num

theorem Vec3.smul_one (v : Vec3) : v * (1 : ℝ) = v := by
  rw [Vec3.hmul_def]
  simp

theorem Vec3.len2_smul (v : Vec3) (s : ℝ) : (v * s).len2 = s ^ 2 * v.len2 := by
  rw [Vec3.hmul_def]
  unfold Vec3.len2 Vec3.dot
  ring

theorem Vec3.len2_add_smul (v w : Vec3) (s : ℝ) :
    (v + w * s).len2 = v.len2 + 2 * s * (v.dot w) + s ^ 2 * w.len2 := by
  rw [Vec3.hmul_def, Vec3.add_def]
  unfold Vec3.len2 Vec3.dot
  ring

theorem Vec3.add_smul_cancel (v w : Vec3) (s : ℝ) : v + w * s + w * (-s) = v := by
  rw [Vec3.hmul_def, Vec3.hmul_def, Vec3.add_def, Vec3.add_def]
  obtain ⟨a, b, c⟩ := v
  simp only [Vec3.mk.injEq]
  refine ⟨by ring, by ring, by ring⟩

theorem Vec3.normalize_len2 (v : Vec3) (h : 0 < v.len2) : v.normalize.len2 = 1 := by
  unfold Vec3.normalize Vec3.len
  rw [Vec3.hdiv_def, Vec3.len2_smul, div_pow, one_pow, Real.sq_sqrt h.le]
  exact one_div_mul_cancel (ne_of_gt h)

/-- At matched refraction ratio 1, Snell decomposition returns the incoming
unit vector unchanged. -/
theorem refract_matched (u n : Vec3) (hu : u.len2 = 1) (hn : n.len2 = 1)
    (hc : 0 ≤ -(u.dot n)) : refract u n 1 = u := by
  unfold refract
  simp only [Vec3.smul_one]
  have hlen : (u + n * (-(u.dot n))).len2 = 1 - -(u.dot n) * -(u.dot n) := by
    rw [Vec3.len2_add_smul, hu, hn]
    ring
  rw [hlen]
  rw [show (1 : ℝ) - (1 - -(u.dot n) * -(u.dot n)) = -(u.dot n) * -(u.dot n) by ring]
  rw [Real.sqrt_mul_self hc]
  exact Vec3.add_smul_cancel u n (-(u.dot n))

/-- C5 amended: for Glass with refractive_index 1, whenever the reflect
branch is not taken (the random draw is at least the Schlick probability
(1−cosθ)⁵; total internal reflection is impossible), the scattered
direction is exactly the unit incoming direction. -/
theorem glass_matched_index_refracts_undeviated (p : Point3) (t : ℝ) (n : Vec3)
    (ow : Bool) (ray : Ray) (g : ℕ → ℝ) (k : ℕ)
    (hdir : 0 < ray.direction.len2) (hn : n.len2 = 1)
    (hcos0 : 0 ≤ -(ray.direction.normalize.dot n))
    (hcos1 : -(ray.direction.normalize.dot n) ≤ 1)
    (hdraw : (1 - -(ray.direction.normalize.dot n)) ^ (5 : ℕ) ≤ g k) :
    (HitRecord.mk p t n ow (Material.Glass 1)).scatter ray g k
      = (some (Ray.mk p ray.direction.normalize, frgb 1 1 1), k + 1) := by
  rw [scatter_glass_eq]
  have hratio : glassRatio ow 1 = 1 := by
    unfold glassRatio
    cases ow <;> norm_num
  have hcos : glassCos ray n = -(ray.direction.normalize.dot n) := by
    unfold glassCos
    exact if_neg (not_lt.mpr hcos1)
  have hsin : glassSin ray n ≤ 1 := by
    unfold glassSin
    rw [hcos]
    exact Real.sqrt_le_one.mpr
      (by nlinarith [mul_self_nonneg (-(ray.direction.normalize.dot n))])
  rw [hratio]
  rw [if_neg (by rw [one_mul]; exact not_lt.mpr hsin)]
  have hsch : schlick (glassCos ray n) 1
      = (1 - -(ray.direction.normalize.dot n)) ^ (5 : ℕ) := by
    unfold schlick
    rw [hcos]
    norm_num
  rw [hsch, if_neg (not_lt.mpr hdraw)]
  rw [refract_matched ray.direction.normalize n (Vec3.normalize_len2 ray.direction hdir)
    hn hcos0]

theorem ray5_normalize : ray5.direction.normalize = ⟨3/5, -(4/5), 0⟩ := by
  have hl2 : ray5.direction.len2 = 1 := by
    unfold ray5 Vec3.len2 Vec3.dot
    norm_num
  unfold Vec3.normalize Vec3.len
  rw [hl2, Real.sqrt_one, Vec3.hdiv_def]
  rw [show ray5.direction = (⟨3/5, -(4/5), 0⟩ : Vec3) from rfl, Vec3.hmul_def]
  norm_num

/-- C5 counterexample: a Glass-1 surface hit at oblique incidence
(unit direction (3/5,-4/5,0), normal (0,1,0)) with random draw 0 REFLECTS:
the scattered direction is (3/5,4/5,0), not the incoming unit direction
(3/5,-4/5,0) — the draw falls below the Schlick probability (1/5)⁵ > 0. -/
theorem glass_matched_index_counterexample :
    (HitRecord.mk ⟨0, 0, 0⟩ 1 ⟨0, 1, 0⟩ true (Material.Glass 1)).scatter ray5 gZero 0
      = (some (Ray.mk ⟨0, 0, 0⟩ ⟨3/5, 4/5, 0⟩, frgb 1 1 1), 1) ∧
    ray5.direction.normalize = ⟨3/5, -(4/5), 0⟩ ∧
    (⟨3/5, (4/5 : ℝ), 0⟩ : Vec3) ≠ ⟨3/5, -(4/5), 0⟩ := by
  refine ⟨?_, ray5_normalize, ?_⟩
  · rw [scatter_glass_eq]
    have hcos : glassCos ray5 ⟨0, 1, 0⟩ = 4/5 := by
      unfold glassCos
      rw [ray5_normalize]
      rw [show (Vec3.mk (3/5) (-(4/5)) 0).dot ⟨0, 1, 0⟩ = -(4/5) by rw [Vec3.dot]; norm_num]
      norm_num
    have hsin : glassSin ray5 ⟨0, 1, 0⟩ = 3/5 := by
      unfold glassSin
      rw [hcos]
      rw [show (1 : ℝ) - 4/5 * (4/5) = (3/5) * (3/5) by norm_num]
      exact Real.sqrt_mul_self (by norm_num)
    have hratio : glassRatio true 1 = 1 := by
      unfold glassRatio
      norm_num
    rw [hratio, hsin, if_neg (by norm_num)]
    have hsch : schlick (glassCos ray5 ⟨0, 1, 0⟩) 1 = (1/5 : ℝ) ^ (5 : ℕ) := by
      unfold schlick
      rw [hcos]
      norm_num
    rw [hsch, if_pos (by show gZero 0 < _; unfold gZero; norm_num)]
    rw [ray5_normalize]
    rw [show (Vec3.mk (3/5) (-(4/5)) 0).reflect ⟨0, 1, 0⟩ = ⟨3/5, 4/5, 0⟩ by
      unfold Vec3.reflect
      rw [Vec3.dot]
      norm_num
      rw [Vec3.hmul_def, Vec3.sub_def]
      norm_num]
  · intro h
    have hy := congrArg Vec3.y h
    norm_num at hy

theorem ray0_normalize : ray0.direction.normalize = ⟨0, 0, -1⟩ := by
  have hl2 : ray0.direction.len2 = 1 := by
    unfold ray0 Vec3.len2 Vec3.dot
    norm_num
  unfold Vec3.normalize Vec3.len
  rw [hl2, Real.sqrt_one, Vec3.hdiv_def]
  rw [show ray0.direction = (⟨0, 0, -1⟩ : Vec3) from rfl, Vec3.hmul_def]
  norm_num

/-- Witness for amended C5 at normal incidence: the draw 0 is not below the
Schlick probability (which is 0 there), so the ray passes undeviated. -/
theorem glass_matched_index_refracts_undeviated_witness :
    (HitRecord.mk ⟨0, 0, 0⟩ 1 ⟨0, 0, 1⟩ true (Material.Glass 1)).scatter ray0 gZero 0
      = (some (Ray.mk ⟨0, 0, 0⟩ ray0.direction.normalize, frgb 1 1 1), 1) :=
  glass_matched_index_refracts_undeviated ⟨0, 0, 0⟩ 1 ⟨0, 0, 1⟩ true ray0 gZero 0
    (by unfold ray0 Vec3.len2 Vec3.dot; norm_num)
    (by unfold Vec3.len2 Vec3.dot; norm_num)
    (by rw [ray0_normalize, Vec3.dot]; norm_num)
    (by rw [ray0_normalize, Vec3.dot]; norm_num)
    (by rw [ray0_normalize, Vec3.dot]; unfold gZero; norm_num)

/-- C1 fails on the code: the scatter at the first bounce is absorbed
(returns None), but ray_color does not return black — the Rust `if let`
has no else branch, so the loop retries the same ray, scatters on the
second draw, escapes to the background, and returns (0.75, 0.85, 1). -/
theorem ray_color_absorbed_not_black :
    mSphere.hit ray0 ((0.0001 : ℝ) : WithTop ℝ) ⊤ = some mRec ∧
    mRec.scatter ray0 gC1 0 = (none, 2) ∧
    ray_color ray0 mSphere.hit 3 gC1 = frgb 0.75 0.85 1 ∧
    frgb 0.75 0.85 1 ≠ frgb 0 0 0 := by
  refine ⟨mSphere_hit_eval, mRec_scatter_absorb, ray_color_trace, ?_⟩
  intro h
  have hr := congrArg FRGBA.r h
  unfold frgb clamp at hr
  norm_num at hr

end

end Manta
